import Mathlib

/-!
# Verification of the meowlouder audio pipeline

Shallow embedding, in Lean 4, of the chunk-accumulation loop, the channel
downmixer, the resampler adapter, the opus codec bridge and the playback
audio buffer of the meowlouder repository
(crates/meowlouder/src/main.rs, crates/opus/src/{error,decoder}.rs,
crates/opus/src/encode/{encoder,encodable}.rs), together with proofs of the
testable properties stated in the specification.

Conventions used throughout:
* Rust `i16`/`i32`/`usize` values are modelled as Lean `Int`/`Nat`; where the
  source performs a wrapping cast (`as i16`) or a saturating cast
  (float `as i16`), an explicit `toI16` / `satI16` is applied.
* Rust integer division (which truncates toward zero) is modelled by
  `Int.tdiv`, never by the Euclidean `/` of `Int`.
* `f32` samples are modelled as exact rationals (`ℚ`); every concrete input
  used in a theorem below is exactly representable in `f32` and the
  operations applied to it (multiplication by an integral power of two or by
  32767 on small integers) are exact in `f32`, so the idealization agrees
  with the source on those inputs.
* Calls into external C code (libopus) and into the rubato resampler are
  modelled by oracle parameters: the oracle returns the raw status code and
  the buffer contents written by the call.
* A Rust panic (out-of-bounds index, `unreachable!`) is modelled by `none`
  in an `Option`-valued result.
-/

namespace Meowlouder

/-! ## Chunk accumulation (main.rs, capture loop)

The capture loop of `main` accumulates incoming sample batches in
`sample_buffer` and repeatedly drains `samples_per_chunk * channels`
samples from the front while at least that many are available
(main.rs lines 186-204); whatever remains when the loop ends is the final
partial chunk (lines 207-220). -/

/-- Model of `samples_per_chunk` from main.rs lines 116-118:
`(sample_rate as u128 * chunk_duration.as_nanos() / 1_000_000_000) as usize`
with `chunk_duration = Duration::from_millis(40)`, whose nanosecond count
is 40 000 000. -/
def samples_per_chunk (sample_rate : Nat) : Nat :=
  sample_rate * 40000000 / 1000000000

/-- Model of the inner `while sample_buffer.len() >= samples_per_chunk * channels`
drain loop (main.rs lines 189-204) at the level of samples: repeatedly remove
exactly `cc` samples from the front of the buffer while at least `cc` are
present, returning the list of removed chunks in order together with the
residual buffer. The source loop diverges when `cc = 0` (it would drain
nothing forever); the `0 < cc` guard makes the model total and is never the
deciding condition in any theorem below, which all either assume or supply
`0 < cc`. -/
def drainChunks (cc : Nat) (buf : List Int) : List (List Int) × List Int :=
  if _h : 0 < cc ∧ cc ≤ buf.length then
    let rest := drainChunks cc (buf.drop cc)
    (buf.take cc :: rest.1, rest.2)
  else
    ([], buf)
termination_by buf.length
decreasing_by simp; omega

/-- Model of the outer capture loop (main.rs lines 178-205) at the level of
samples: for each received batch, extend the accumulation buffer with the
batch and drain all complete chunks; the residual buffer left when the
batches are exhausted is what lines 207-220 encode as the final partial
chunk. Returns (emitted chunks in order, residual buffer). -/
def captureLoop (cc : Nat) (buf : List Int) : List (List Int) → List (List Int) × List Int
  | [] => ([], buf)
  | batch :: rest =>
    let d := drainChunks cc (buf ++ batch)
    let r := captureLoop cc d.2 rest
    (d.1 ++ r.1, r.2)

theorem drainChunks_flatten (cc : Nat) (buf : List Int) :
    (drainChunks cc buf).1.flatten ++ (drainChunks cc buf).2 = buf := by
  rw [drainChunks]
  split
  · have ih := drainChunks_flatten cc (buf.drop cc)
    simp only [List.flatten_cons, List.append_assoc, ih]
    exact List.take_append_drop cc buf
  · simp
termination_by buf.length
decreasing_by simp; omega

theorem drainChunks_length (cc : Nat) (buf : List Int) :
    ∀ c ∈ (drainChunks cc buf).1, c.length = cc := by
  rw [drainChunks]
  split
  · next h =>
    intro c hc
    simp only [List.mem_cons] at hc
    rcases hc with rfl | hc
    · simpa using h.2
    · exact drainChunks_length cc (buf.drop cc) c hc
  · simp
termination_by buf.length
decreasing_by simp; omega

theorem drainChunks_res_short (cc : Nat) (buf : List Int) (hcc : 0 < cc) :
    (drainChunks cc buf).2.length < cc := by
  rw [drainChunks]
  split
  · exact drainChunks_res_short cc (buf.drop cc) hcc
  · next h =>
    simp only [not_and, not_le] at h
    exact h hcc
termination_by buf.length
decreasing_by simp; omega

theorem captureLoop_flatten (cc : Nat) (buf : List Int) (batches : List (List Int)) :
    (captureLoop cc buf batches).1.flatten ++ (captureLoop cc buf batches).2 =
      buf ++ batches.flatten := by
  induction batches generalizing buf with
  | nil => simp [captureLoop]
  | cons batch rest ih =>
    simp only [captureLoop, List.flatten_cons, List.flatten_append, List.append_assoc]
    rw [ih]
    rw [← List.append_assoc _ _ rest.flatten, drainChunks_flatten, List.append_assoc]

theorem captureLoop_chunk_length (cc : Nat) (buf : List Int) (batches : List (List Int)) :
    ∀ c ∈ (captureLoop cc buf batches).1, c.length = cc := by
  induction batches generalizing buf with
  | nil => simp [captureLoop]
  | cons batch rest ih =>
    intro c hc
    simp only [captureLoop, List.mem_append] at hc
    rcases hc with hc | hc
    · exact drainChunks_length cc (buf ++ batch) c hc
    · exact ih _ c hc

/-- C1. Chunking completeness: for every sequence of sample batches fed to
the coordinator's accumulation buffer (initially empty), the concatenation
of all emitted full chunks, followed by the residual samples that form the
final partial chunk, equals the concatenation of the input batches exactly
(no reordering, loss, or duplication), and every emitted chunk holds exactly
`chunk_size * channel_count` samples taken from the front in FIFO order. -/
theorem chunking_completeness (cc : Nat) (batches : List (List Int)) :
    (captureLoop cc [] batches).1.flatten ++ (captureLoop cc [] batches).2 =
        batches.flatten ∧
      ∀ c ∈ (captureLoop cc [] batches).1, c.length = cc := by
  refine ⟨?_, captureLoop_chunk_length cc [] batches⟩
  simpa using captureLoop_flatten cc [] batches

/-- C2. Chunk sizing and framing: at 48000 Hz the chunk size computed at
startup is `48000 * 40 / 1000 = 1920` samples per channel, and a 2-channel
batch of 4800 samples per channel (9600 interleaved samples) processed by
the chunking loop yields exactly two full chunks of 1920 samples per channel
(3840 interleaved samples each, taken from the front in order) followed by
one trailing chunk of 960 samples per channel (the 1920-sample residual,
encoded with `frame_size = remaining / channels = 960`). -/
theorem chunk_sizing_and_framing (buf : List Int) (hlen : buf.length = 9600) :
    samples_per_chunk 48000 = 48000 * 40 / 1000 ∧
      samples_per_chunk 48000 = 1920 ∧
      (captureLoop (samples_per_chunk 48000 * 2) [] [buf]).1 =
        [buf.take 3840, (buf.drop 3840).take 3840] ∧
      (captureLoop (samples_per_chunk 48000 * 2) [] [buf]).2 = buf.drop 7680 ∧
      (∀ c ∈ (captureLoop (samples_per_chunk 48000 * 2) [] [buf]).1,
        c.length = 1920 * 2) ∧
      (captureLoop (samples_per_chunk 48000 * 2) [] [buf]).2.length / 2 = 960 := by
  have hspc : samples_per_chunk 48000 = 1920 := by norm_num [samples_per_chunk]
  have l1 : (buf.drop 3840).length = 5760 := by simp [hlen]
  have l2 : ((buf.drop 3840).drop 3840).length = 1920 := by simp [hlen]
  have h3 : drainChunks 3840 ((buf.drop 3840).drop 3840) =
      ([], (buf.drop 3840).drop 3840) := by
    rw [drainChunks, dif_neg]
    simp only [l2]
    decide
  have h2 : drainChunks 3840 (buf.drop 3840) =
      ([(buf.drop 3840).take 3840], (buf.drop 3840).drop 3840) := by
    rw [drainChunks, dif_pos ⟨by decide, by omega⟩, h3]
  have h1 : drainChunks 3840 buf =
      ([buf.take 3840, (buf.drop 3840).take 3840], (buf.drop 3840).drop 3840) := by
    rw [drainChunks, dif_pos ⟨by decide, by omega⟩, h2]
  have hdd : (buf.drop 3840).drop 3840 = buf.drop 7680 := by
    rw [List.drop_drop]
  have hcap : captureLoop (samples_per_chunk 48000 * 2) [] [buf] =
      ([buf.take 3840, (buf.drop 3840).take 3840], buf.drop 7680) := by
    rw [hspc]
    show (let d := drainChunks 3840 ([] ++ buf)
          let r := captureLoop 3840 d.2 []
          (d.1 ++ r.1, r.2)) = _
    simp only [List.nil_append, h1, captureLoop, List.append_nil, hdd]
  refine ⟨by norm_num [samples_per_chunk], hspc, ?_, ?_, ?_, ?_⟩
  · rw [hcap]
  · rw [hcap]
  · intro c hc
    rw [hcap] at hc
    simp only [List.mem_cons, List.not_mem_nil, or_false] at hc
    have hl1 : (buf.take 3840).length = 3840 := by simp [hlen]
    have hl2 : ((buf.drop 3840).take 3840).length = 3840 := by simp [l1]
    rcases hc with rfl | rfl
    · simpa using hl1
    · simpa using hl2
  · rw [hcap]
    simp [hlen]

/-- C2 witness: the framing facts instantiated at a concrete 9600-sample
buffer. -/
theorem chunk_sizing_and_framing_witness :
    (List.replicate 9600 (0 : Int)).length = 9600 ∧
      samples_per_chunk 48000 = 1920 := by
  refine ⟨List.length_replicate 9600 0, ?_⟩
  exact (chunk_sizing_and_framing (List.replicate 9600 (0 : Int))
    (List.length_replicate 9600 0)).2.1

/-! ## Channel downmixer (main.rs, handle_input_data_i16 / handle_input_data_f32)

The capture callbacks pass frames with at most 2 channels through
unchanged (integer path) or scaled by 32767 (float path), and downmix
frames with more than 2 channels by summing even-index and odd-index
samples of each `channels`-sized group and dividing by `channels / 2`
(main.rs lines 301-359). -/

/-- Model of the Rust cast `x as i16` on an `i32` value: two's-complement
wrapping into the interval [-32768, 32767]. -/
def toI16 (x : Int) : Int := (x + 32768) % 65536 - 32768

/-- Model of the Rust cast `x as i16` on a float value: truncation with
saturation at the bounds of `i16` (Rust float-to-int casts saturate). -/
def satI16 (x : Int) : Int := max (-32768) (min 32767 x)

/-- Truncation toward zero of a rational, the rounding applied by a Rust
float-to-integer cast before saturation. -/
def truncQ (q : ℚ) : Int := if 0 ≤ q then ⌊q⌋ else ⌈q⌉

/-- Model of the slice iterator `input.chunks(n)` used by both downmix
paths: the consecutive `n`-sized groups of `l`, the last group possibly
shorter. (`chunks` panics in Rust when `n = 0`; the `0 < n` guard makes the
model total, and every use below has `n` equal to a channel count above 2.) -/
def chunksOf {α : Type} (n : Nat) (l : List α) : List (List α) :=
  if _h : 0 < n ∧ 0 < l.length then
    l.take n :: chunksOf n (l.drop n)
  else []
termination_by l.length
decreasing_by simp; omega

/-- Model of the accumulation loop
`for (i, &sample) in chunk.iter().enumerate() { if i % 2 == 0 { left += sample } else { right += sample } }`
shared by both downmix paths (main.rs lines 313-319 and 342-348): the first
component collects the samples at even indices, the second the samples at
odd indices. -/
def sumAlt {α : Type} [Add α] [Zero α] : List α → α × α
  | [] => (0, 0)
  | x :: xs => ((sumAlt xs).2 + x, (sumAlt xs).1)

/-- Model of `handle_input_data_i16` (main.rs lines 332-359), returning the
sample vector handed to `tx.send`: frames with at most two channels are
forwarded unchanged; otherwise each `channels`-sized group is reduced to an
interleaved stereo pair. The sums are exact (`i32` cannot overflow on sums
of at most 65535 16-bit samples), the division is the truncating `i32`
division with divisor `channels / 2`, and the final `as i16` casts wrap. -/
def handle_input_data_i16 (channels : Nat) (input : List Int) : List Int :=
  if channels ≤ 2 then
    input
  else
    ((chunksOf channels input).map (fun chunk =>
      let s := sumAlt chunk
      [toI16 (Int.tdiv s.1 ((channels / 2 : Nat) : Int)),
       toI16 (Int.tdiv s.2 ((channels / 2 : Nat) : Int))])).flatten

/-- Model of `handle_input_data_f32` (main.rs lines 301-330) with `f32`
samples idealized as exact rationals: frames with at most two channels are
scaled by 32767 and cast to `i16` (truncation toward zero, saturating);
otherwise each group's even/odd sums are divided by the floating quotient
`channels as f32 / 2.0` before the same scaling and cast. -/
def handle_input_data_f32 (channels : Nat) (input : List ℚ) : List Int :=
  if channels ≤ 2 then
    input.map (fun sample => satI16 (truncQ (sample * 32767)))
  else
    ((chunksOf channels input).map (fun chunk =>
      let s := sumAlt chunk
      let l := s.1 / ((channels : ℚ) / 2)
      let r := s.2 / ((channels : ℚ) / 2)
      [satI16 (truncQ (l * 32767)), satI16 (truncQ (r * 32767))])).flatten

/-- Specification-side sum of the samples at even indices of a group,
written directly from the words of the claim; stated over any additive
commutative monoid so that it covers both the 16-bit integer path and the
rational idealization of the float path. -/
def evenIdxSum {α : Type} [AddCommMonoid α] (g : List α) : α :=
  ∑ i ∈ Finset.range g.length, if i % 2 = 0 then g.getD i 0 else 0

/-- Specification-side sum of the samples at odd indices of a group. -/
def oddIdxSum {α : Type} [AddCommMonoid α] (g : List α) : α :=
  ∑ i ∈ Finset.range g.length, if i % 2 = 1 then g.getD i 0 else 0

theorem evenIdxSum_cons {α : Type} [AddCommMonoid α] (x : α) (xs : List α) :
    evenIdxSum (x :: xs) = x + oddIdxSum xs := by
  unfold evenIdxSum oddIdxSum
  rw [List.length_cons, Finset.sum_range_succ']
  have h : ∀ i ∈ Finset.range xs.length,
      (if (i + 1) % 2 = 0 then (x :: xs).getD (i + 1) 0 else 0) =
        (if i % 2 = 1 then xs.getD i 0 else 0) := by
    intro i _
    have : (i + 1) % 2 = 0 ↔ i % 2 = 1 := Nat.succ_mod_two_eq_zero_iff
    simp only [List.getD_cons_succ]
    by_cases hp : i % 2 = 1
    · rw [if_pos (this.mpr hp), if_pos hp]
    · rw [if_neg (fun hc => hp (this.mp hc)), if_neg hp]
  rw [Finset.sum_congr rfl h]
  simp [add_comm]

theorem oddIdxSum_cons {α : Type} [AddCommMonoid α] (x : α) (xs : List α) :
    oddIdxSum (x :: xs) = evenIdxSum xs := by
  unfold evenIdxSum oddIdxSum
  rw [List.length_cons, Finset.sum_range_succ']
  have h : ∀ i ∈ Finset.range xs.length,
      (if (i + 1) % 2 = 1 then (x :: xs).getD (i + 1) 0 else 0) =
        (if i % 2 = 0 then xs.getD i 0 else 0) := by
    intro i _
    have : (i + 1) % 2 = 1 ↔ i % 2 = 0 := Nat.succ_mod_two_eq_one_iff
    simp only [List.getD_cons_succ]
    by_cases hp : i % 2 = 0
    · rw [if_pos (this.mpr hp), if_pos hp]
    · rw [if_neg (fun hc => hp (this.mp hc)), if_neg hp]
  rw [Finset.sum_congr rfl h]
  simp

theorem sumAlt_spec {α : Type} [AddCommMonoid α] (g : List α) :
    sumAlt g = (evenIdxSum g, oddIdxSum g) := by
  induction g with
  | nil => simp [sumAlt, evenIdxSum, oddIdxSum]
  | cons x xs ih => simp [sumAlt, ih, evenIdxSum_cons, oddIdxSum_cons, add_comm]

theorem chunksOf_flatten {α : Type} (n : Nat) (hn : 0 < n) (l : List α) :
    (chunksOf n l).flatten = l := by
  rw [chunksOf]
  split
  · rw [List.flatten_cons, chunksOf_flatten n hn (l.drop n)]
    exact List.take_append_drop n l
  · next h =>
    simp only [not_and, Nat.not_lt, Nat.le_zero] at h
    have : l.length = 0 := h hn
    simp [List.length_eq_zero.mp this]
termination_by l.length
decreasing_by simp; omega

theorem chunksOf_mem_length {α : Type} (n : Nat) (hn : 0 < n) (l : List α)
    (hdvd : n ∣ l.length) : ∀ g ∈ chunksOf n l, g.length = n := by
  rw [chunksOf]
  split
  · next h =>
    intro g hg
    have hlen : n ≤ l.length := Nat.le_of_dvd h.2 hdvd
    simp only [List.mem_cons] at hg
    rcases hg with rfl | hg
    · simpa using hlen
    · refine chunksOf_mem_length n hn (l.drop n) ?_ g hg
      simpa using Nat.dvd_sub' hdvd dvd_rfl
  · simp
termination_by l.length
decreasing_by simp; omega

theorem chunksOf_six : chunksOf 6 ([1, 2, 3, 4, 5, 6] : List Int) = [[1, 2, 3, 4, 5, 6]] := by
  rw [chunksOf, dif_pos (by decide)]
  rw [show List.drop 6 ([1, 2, 3, 4, 5, 6] : List Int) = [] from rfl]
  rw [chunksOf, dif_neg (by decide)]
  rfl

theorem chunksOf_three : chunksOf 3 ([32767, 0, 32767] : List Int) = [[32767, 0, 32767]] := by
  rw [chunksOf, dif_pos (by decide)]
  rw [show List.drop 3 ([32767, 0, 32767] : List Int) = [] from rfl]
  rw [chunksOf, dif_neg (by decide)]
  rfl

/-- C3 counterexample: on the 16-bit path the quotient is pushed through
the wrapping cast `as i16`, so for the 3-channel frame `[32767, 0, 32767]`
the code emits `-2` for the left sample while the claim predicts the raw
quotient `(32767 + 32767) / 1 = 65534`. -/
theorem downmix_multichannel_counterexample :
    handle_input_data_i16 3 [32767, 0, 32767] = [-2, 0] ∧
      Int.tdiv (evenIdxSum [32767, 0, 32767]) (((3 : Nat) / 2 : Nat) : Int) = 65534 ∧
      ((-2 : Int) ≠ 65534) := by
  refine ⟨?_, by decide, by decide⟩
  rw [handle_input_data_i16, if_neg (by decide), chunksOf_three]
  decide

/-- C3 (amended). Multichannel downmix on both paths: for channel count
`N > 2` the downmixer splits the input into consecutive `N`-sized groups
(which partition the input, each of size `N` when `N` divides the input
length) and emits, per group, one interleaved stereo pair. On the 16-bit
integer path, left is the 16-bit two's-complement wrap of (the sum of the
samples at even indices within the group, divided by `N / 2` with
truncating integer division) and right is the same for the odd indices. On
the float path, left is the sum of the samples at even indices divided by
`N / 2` with floating division, then scaled by 32767 and cast to `i16`
(truncation toward zero, saturating), and right is the same for the odd
indices. In particular the 6-channel 16-bit frame `[1, 2, 3, 4, 5, 6]`
downmixes to `[3, 4]`. -/
theorem downmix_multichannel (N : Nat) (hN : 2 < N) (input : List Int)
    (finput : List ℚ) :
    handle_input_data_i16 N input =
        ((chunksOf N input).map (fun g =>
          [toI16 (Int.tdiv (evenIdxSum g) ((N / 2 : Nat) : Int)),
           toI16 (Int.tdiv (oddIdxSum g) ((N / 2 : Nat) : Int))])).flatten ∧
      handle_input_data_f32 N finput =
        ((chunksOf N finput).map (fun g =>
          [satI16 (truncQ (evenIdxSum g / ((N : ℚ) / 2) * 32767)),
           satI16 (truncQ (oddIdxSum g / ((N : ℚ) / 2) * 32767))])).flatten ∧
      (chunksOf N input).flatten = input ∧
      (chunksOf N finput).flatten = finput ∧
      (N ∣ input.length → ∀ g ∈ chunksOf N input, g.length = N) ∧
      (N ∣ finput.length → ∀ g ∈ chunksOf N finput, g.length = N) ∧
      handle_input_data_i16 6 [1, 2, 3, 4, 5, 6] = [3, 4] := by
  refine ⟨?_, ?_, chunksOf_flatten N (by omega) input,
    chunksOf_flatten N (by omega) finput,
    chunksOf_mem_length N (by omega) input,
    chunksOf_mem_length N (by omega) finput, ?_⟩
  · rw [handle_input_data_i16, if_neg (by omega)]
    simp only [sumAlt_spec]
  · rw [handle_input_data_f32, if_neg (by omega)]
    simp only [sumAlt_spec]
  · rw [handle_input_data_i16, if_neg (by decide), chunksOf_six]
    decide

/-- C3 witness: the amended downmix theorem instantiated at the 6-channel
frame of end-to-end scenario B (and the empty float frame). -/
theorem downmix_multichannel_witness :
    (2 : Nat) < 6 ∧ handle_input_data_i16 6 [1, 2, 3, 4, 5, 6] = [3, 4] :=
  ⟨by decide, (downmix_multichannel 6 (by decide) [1, 2, 3, 4, 5, 6] []).2.2.2.2.2.2⟩

/-- C4 counterexample: the float path ends in a Rust float-to-int cast,
which saturates; at the out-of-range input sample `2.0` (exactly
representable, with `2.0 * 32767.0 = 65534.0` exact in `f32`) the code
emits `32767`, while the claim (no clamping) predicts `65534`. -/
theorem stereo_passthrough_counterexample :
    handle_input_data_f32 1 [(2 : ℚ)] = [32767] ∧
      truncQ ((2 : ℚ) * 32767) = 65534 ∧ ((32767 : Int) ≠ 65534) := by
  refine ⟨?_, ?_, by decide⟩
  · rw [handle_input_data_f32, if_pos (by decide)]
    norm_num [truncQ, satI16]
  · norm_num [truncQ]

/-- C4 (amended). Stereo passthrough: for channel count at most 2 the
16-bit integer path forwards the frame unchanged, and the floating-point
path maps each sample `x` to the 16-bit integer obtained by multiplying `x`
by 32767, truncating toward zero, and saturating into the `i16` range (the
Rust float-to-int cast clamps out-of-range input; there is no dithering). -/
theorem stereo_passthrough (channels : Nat) (h : channels ≤ 2)
    (input : List Int) (finput : List ℚ) :
    handle_input_data_i16 channels input = input ∧
      handle_input_data_f32 channels finput =
        finput.map (fun sample => satI16 (truncQ (sample * 32767))) := by
  rw [handle_input_data_i16, if_pos h, handle_input_data_f32, if_pos h]
  exact ⟨rfl, rfl⟩

/-- C4 witness: stereo passthrough instantiated at a concrete 2-channel
frame. -/
theorem stereo_passthrough_witness :
    (2 : Nat) ≤ 2 ∧ handle_input_data_i16 2 [5, -7] = [5, -7] :=
  ⟨by decide, (stereo_passthrough 2 (by decide) [5, -7] []).1⟩

/-! ## Resampler adapter (main.rs, resample_audio)

`resample_audio` (main.rs lines 68-93) deinterleaves the 16-bit input into
per-channel float buffers, runs the windowed-sinc filter through
`resampler.process(&input_f32, None).unwrap_or_default()`, and
reinterleaves `output_f32` by indexing `output_f32[0].len()` and
`output_f32[channel][i]`. The filter call is modelled by the oracle
`filt`; `none` models a `process` error, which `unwrap_or_default`
replaces by the default empty `Vec<Vec<f32>>` (an empty OUTER vector). A
Lean result of `none` models a Rust index panic. -/

/-- Model of one iteration of the deinterleaving push loop
`input_f32[i % channels].push(*sample as f32 / 32768.0)` (main.rs 77-79). -/
def pushSample (channels : Nat) (bufs : List (List ℚ)) (i : Nat) (sample : Int) :
    List (List ℚ) :=
  bufs.set (i % channels) (bufs.getD (i % channels) [] ++ [(sample : ℚ) / 32768])

/-- Model of the deinterleave loop of `resample_audio` (main.rs 76-79),
starting from `vec![Vec::new(); channels]`. -/
def deinterleave (channels : Nat) (input : List Int) : List (List ℚ) :=
  input.enum.foldl (fun bufs p => pushSample channels bufs p.1 p.2)
    (List.replicate channels [])

/-- Model of `resample_audio` (main.rs 68-93). The reinterleave loop walks
`i` over `0..output_f32[0].len()` and `channel` over `0..channels`, pushing
`(output_f32[channel][i] * 32768.0) as i16`; each slice index is modelled
by an `Option`-valued lookup so that `none` marks the panic the source
would raise on an out-of-bounds index — including `output_f32[0]` itself
when the filter produced no output vector. -/
def resample_audio (filt : List (List ℚ) → Option (List (List ℚ)))
    (channels : Nat) (input : List Int) : Option (List Int) :=
  let input_f32 := deinterleave channels input
  let output_f32 := (filt input_f32).getD []
  match output_f32 with
  | [] => none
  | c0 :: _ =>
    ((List.range c0.length).mapM (fun i =>
      (List.range channels).mapM (fun channel =>
        ((output_f32.get? channel).bind (fun col => col.get? i)).map
          (fun q => satI16 (truncQ (q * 32768)))))).map List.flatten

/-- C5. Resampler empty-output tolerance fails: when the filter reports an
error for a call (first conjunct, oracle `fun _ => none` modelling an
`Err` from `process`), `unwrap_or_default` substitutes an empty outer
vector and the adapter panics on the index `output_f32[0]` instead of
returning an empty sample vector; the intended behavior (second conjunct)
is only reached when the filter itself returns a nonempty outer vector of
empty channel buffers. -/
theorem resample_audio_empty_output_bug :
    resample_audio (fun _ => none) 1 [5] = none ∧
      resample_audio (fun _ => some [[]]) 1 [5] = some [] := by
  exact ⟨rfl, rfl⟩

/-! ## Codec bridge error mapping (crates/opus/src/error.rs)

`OpusErrorCode` is the typed error enumeration; `from_errno` translates a
raw libopus status into it (and is `unreachable!` on any other value,
modelled by `none`); the `map_error!` macro turns a raw status into
`Err(from_errno(status))` when negative and `Ok(status)` otherwise. The
numeric values of the `OPUS_*` constants are fixed by the public libopus C
API (opus_defines.h), re-exported through the opus-sys bindings. -/

def OPUS_BAD_ARG : Int := -1

def OPUS_BUFFER_TOO_SMALL : Int := -2

def OPUS_INTERNAL_ERROR : Int := -3

def OPUS_INVALID_PACKET : Int := -4

def OPUS_UNIMPLEMENTED : Int := -5

def OPUS_INVALID_STATE : Int := -6

def OPUS_ALLOC_FAIL : Int := -7

/-- Model of the `OpusErrorCode` enum (error.rs lines 11-21). -/
inductive OpusErrorCode
  | BadArg
  | BufferTooSmall
  | InternalError
  | InvalidPacket
  | Unimplemented
  | InvalidState
  | AllocFail
deriving DecidableEq

/-- Model of `OpusErrorCode::from_errno` (error.rs lines 34-45); `none`
models the `unreachable!` panic on an unknown status. -/
def OpusErrorCode.from_errno (errno : Int) : Option OpusErrorCode :=
  if errno = OPUS_BAD_ARG then some .BadArg
  else if errno = OPUS_BUFFER_TOO_SMALL then some .BufferTooSmall
  else if errno = OPUS_INTERNAL_ERROR then some .InternalError
  else if errno = OPUS_INVALID_PACKET then some .InvalidPacket
  else if errno = OPUS_UNIMPLEMENTED then some .Unimplemented
  else if errno = OPUS_INVALID_STATE then some .InvalidState
  else if errno = OPUS_ALLOC_FAIL then some .AllocFail
  else none

/-- Model of the base arm of the `map_error!` macro (error.rs lines 58-64):
negative statuses become the typed error, non-negative statuses succeed. -/
def map_error (result : Int) : Option (Except OpusErrorCode Int) :=
  if result < 0 then (OpusErrorCode.from_errno result).map Except.error
  else some (.ok result)

/-- C6. Typed error mapping: a status maps to a success value exactly when
it is non-negative; each of the seven negative libopus status codes maps to
its own variant of the typed error enumeration; and the seven variants are
pairwise distinct, so distinct codec error kinds are never collapsed. This
covers every negative status the codec can return, since the libopus API
defines exactly these seven. -/
theorem typed_error_mapping :
    (∀ s : Int, map_error s = some (.ok s) ↔ 0 ≤ s) ∧
      map_error OPUS_BAD_ARG = some (.error .BadArg) ∧
      map_error OPUS_BUFFER_TOO_SMALL = some (.error .BufferTooSmall) ∧
      map_error OPUS_INTERNAL_ERROR = some (.error .InternalError) ∧
      map_error OPUS_INVALID_PACKET = some (.error .InvalidPacket) ∧
      map_error OPUS_UNIMPLEMENTED = some (.error .Unimplemented) ∧
      map_error OPUS_INVALID_STATE = some (.error .InvalidState) ∧
      map_error OPUS_ALLOC_FAIL = some (.error .AllocFail) ∧
      ([.BadArg, .BufferTooSmall, .InternalError, .InvalidPacket,
        .Unimplemented, .InvalidState, .AllocFail] : List OpusErrorCode).Pairwise (· ≠ ·) := by
  refine ⟨?_, rfl, rfl, rfl, rfl, rfl, rfl, rfl, by decide⟩
  intro s
  constructor
  · intro h
    by_contra hneg
    push_neg at hneg
    simp only [map_error, if_pos hneg, OpusErrorCode.from_errno] at h
    split_ifs at h <;> simp_all
  · intro h
    simp [map_error, Int.not_lt.mpr h]

/-! ## Decoder bridge (crates/opus/src/decoder.rs)

`OpusDecoder::decode_into` prechecks the output slice length against
`frame_size * channels` under the default build configuration (the
`i-can-be-trusted-to-size-my-decoder-buffer-correctly` feature is off, so
`!cfg!(feature = ...)` is true and the check runs), then calls the external
`opus_decode`, mapping its status through `map_error!(usize, ...)`. The FFI
call is modelled by an oracle taking the packet, the frame size, the
provided pcm buffer and the fec flag, and returning the raw status together
with the pcm buffer contents after the call. -/

/-- Model of `OpusDecoder::decode_into` (decoder.rs lines 29-65) under the
default build configuration. On success the result carries the status cast
to `usize` and the pcm buffer as written by the codec; the outer `Option`
models the `from_errno` panic on an unknown negative status. -/
def decode_into (orc : Option (List Nat) → Nat → List Int → Bool → Int × List Int)
    (channels : Nat) (data : Option (List Nat)) (pcm : List Int)
    (frame_size : Nat) (decode_fec : Bool) :
    Option (Except OpusErrorCode (Nat × List Int)) :=
  if pcm.length < frame_size * channels then
    some (.error .BufferTooSmall)
  else
    let r := orc data frame_size pcm decode_fec
    (map_error r.1).map (fun e => e.map (fun v => (v.toNat, r.2)))

/-- Model of the convenience wrapper `OpusDecoder::decode` (decoder.rs
lines 67-80): it allocates `vec![0; frame_size * self.channels]`, calls
`decode_into`, and truncates the buffer to the returned length. -/
def decode (orc : Option (List Nat) → Nat → List Int → Bool → Int × List Int)
    (channels : Nat) (data : Option (List Nat)) (frame_size : Nat)
    (decode_fec : Bool) : Option (Except OpusErrorCode (List Int)) :=
  let pcm : List Int := List.replicate (frame_size * channels) 0
  (decode_into orc channels data pcm frame_size decode_fec).map
    (fun e => e.map (fun p => p.2.take p.1))

theorem from_errno_buffer_too_small (s : Int)
    (h : OpusErrorCode.from_errno s = some .BufferTooSmall) :
    s = OPUS_BUFFER_TOO_SMALL := by
  unfold OpusErrorCode.from_errno at h
  split_ifs at h <;> simp_all

/-- C9. Decoder buffer precheck: whenever the provided output slice is
shorter than `frame_size * channels`, `decode_into` returns the
buffer-too-small typed error, and does so without consulting the codec (the
result is the same for every oracle, so the decoder state and buffer are
untouched); the `decode` wrapper allocates exactly `frame_size * channels`
samples, so the only way it can return buffer-too-small is the codec itself
reporting that status, and on a successful codec call reporting `st`
decoded samples it returns the written buffer truncated to exactly `st`
samples. -/
theorem decoder_buffer_precheck :
    (∀ (orc orc' : Option (List Nat) → Nat → List Int → Bool → Int × List Int)
        (channels : Nat) (data : Option (List Nat)) (pcm : List Int)
        (frame_size : Nat) (fec : Bool),
        pcm.length < frame_size * channels →
          decode_into orc channels data pcm frame_size fec =
              some (.error .BufferTooSmall) ∧
            decode_into orc channels data pcm frame_size fec =
              decode_into orc' channels data pcm frame_size fec) ∧
      (∀ (orc : Option (List Nat) → Nat → List Int → Bool → Int × List Int)
          (channels : Nat) (data : Option (List Nat)) (frame_size : Nat)
          (fec : Bool) (st : Int) (out : List Int),
          orc data frame_size (List.replicate (frame_size * channels) 0) fec = (st, out) →
          0 ≤ st → st.toNat ≤ out.length →
            decode orc channels data frame_size fec = some (.ok (out.take st.toNat)) ∧
              (out.take st.toNat).length = st.toNat) ∧
      (∀ (orc : Option (List Nat) → Nat → List Int → Bool → Int × List Int)
          (channels : Nat) (data : Option (List Nat)) (frame_size : Nat) (fec : Bool),
          decode orc channels data frame_size fec = some (.error .BufferTooSmall) →
            (orc data frame_size (List.replicate (frame_size * channels) 0) fec).1 =
              OPUS_BUFFER_TOO_SMALL) := by
  refine ⟨?_, ?_, ?_⟩
  · intro orc orc' channels data pcm frame_size fec hlt
    rw [decode_into, if_pos hlt, decode_into, if_pos hlt]
    exact ⟨rfl, rfl⟩
  · intro orc channels data frame_size fec st out horc hst hle
    have hnot : ¬ (List.replicate (frame_size * channels) (0 : Int)).length <
        frame_size * channels := by
      simp
    rw [decode, decode_into, if_neg hnot, horc]
    simp only [map_error, if_neg (Int.not_lt.mpr hst), Option.map_some, Except.map]
    refine ⟨rfl, ?_⟩
    simp only [List.length_take]
    omega
  · intro orc channels data frame_size fec h
    have hnot : ¬ (List.replicate (frame_size * channels) (0 : Int)).length <
        frame_size * channels := by
      simp
    rw [decode, decode_into, if_neg hnot] at h
    rcases horc : orc data frame_size (List.replicate (frame_size * channels) 0) fec
      with ⟨st, out⟩
    rw [horc] at h
    by_cases hneg : st < 0
    · simp only [map_error, if_pos hneg] at h
      rcases hfe : OpusErrorCode.from_errno st with _ | e
      · simp [hfe] at h
      · simp only [hfe, Option.map_some, Except.map, Option.map_some,
          Option.some_inj] at h
        cases h
        exact from_errno_buffer_too_small st hfe
    · simp [map_error, if_neg hneg, Except.map] at h

/-- C9 witness: the precheck and the wrapper instantiated at a concrete
oracle (echoing the buffer with status 3) with frame_size 2 and 2
channels; the 3-sample slice is too small and the wrapper truncates the
4-sample buffer to 3 samples. -/
theorem decoder_buffer_precheck_witness :
    ([0, 0, 0] : List Int).length < 2 * 2 ∧
      decode_into (fun _ _ pcm _ => (3, pcm)) 2 none [0, 0, 0] 2 false =
        some (.error .BufferTooSmall) ∧
      decode (fun _ _ pcm _ => (3, pcm)) 2 none 2 false =
        some (.ok [0, 0, 0]) := by
  refine ⟨by decide, ?_, ?_⟩
  · exact (decoder_buffer_precheck.1 (fun _ _ pcm _ => (3, pcm))
      (fun _ _ pcm _ => (3, pcm)) 2 none [0, 0, 0] 2 false (by decide)).1
  · have := (decoder_buffer_precheck.2.1 (fun _ _ pcm _ => (3, pcm)) 2 none 2 false
      3 (List.replicate (2 * 2) 0) rfl (by decide) (by decide)).1
    simpa using this

/-! ## Encoder bridge (crates/opus/src/encode/encoder.rs, encodable.rs)

`OpusEncoder::encode` allocates a fixed `MAX_DATA_BYTES = 1275`-byte output
buffer, calls `encode_into` (which forwards to the external `opus_encode`
through `map_error!(usize, ...)`), and truncates the buffer to the
returned byte count. The FFI call is modelled by an oracle returning the
raw status and the output buffer contents after the call. -/

def MAX_DATA_BYTES : Nat := 1275

/-- Model of `OpusEncoder::encode_into` together with the
`OpusEncodable::encode` impl it forwards to (encoder.rs lines 36-43,
encodable.rs lines 14-30). -/
def encode_into (orc : List Int → Nat → List Nat → Int × List Nat)
    (pcm : List Int) (frame_size : Nat) (data : List Nat) :
    Option (Except OpusErrorCode (Nat × List Nat)) :=
  let r := orc pcm frame_size data
  (map_error r.1).map (fun e => e.map (fun v => (v.toNat, r.2)))

/-- Model of `OpusEncoder::encode` (encoder.rs lines 45-54): allocate
`vec![0; MAX_DATA_BYTES]`, encode into it, truncate to the returned
length. -/
def encode (orc : List Int → Nat → List Nat → Int × List Nat)
    (pcm : List Int) (frame_size : Nat) :
    Option (Except OpusErrorCode (List Nat)) :=
  let data : List Nat := List.replicate MAX_DATA_BYTES 0
  (encode_into orc pcm frame_size data).map
    (fun e => e.map (fun p => p.2.take p.1))

/-- C10. Encoded packet size bound: the bridge always hands the codec a
fixed 1275-byte buffer; under the codec's contract (it writes in place, so
the buffer keeps its length, and reports at most the buffer's length) every
successful `encode` returns the buffer truncated to exactly the reported
byte count, which is at most 1275; and with only the in-place-write
invariant, every successful result has length at most 1275, whatever status
the codec reports. -/
theorem encoded_packet_size_bound :
    (∀ (orc : List Int → Nat → List Nat → Int × List Nat)
        (pcm : List Int) (frame_size : Nat) (st : Int) (out : List Nat),
        orc pcm frame_size (List.replicate MAX_DATA_BYTES 0) = (st, out) →
        out.length = MAX_DATA_BYTES → 0 ≤ st → st ≤ (MAX_DATA_BYTES : Int) →
          encode orc pcm frame_size = some (.ok (out.take st.toNat)) ∧
            (out.take st.toNat).length = st.toNat ∧ st.toNat ≤ MAX_DATA_BYTES) ∧
      (∀ (orc : List Int → Nat → List Nat → Int × List Nat)
          (pcm : List Int) (frame_size : Nat) (v : List Nat),
          (∀ p f b, ((orc p f b).2).length = b.length) →
          encode orc pcm frame_size = some (.ok v) → v.length ≤ MAX_DATA_BYTES) := by
  constructor
  · intro orc pcm frame_size st out horc hout hst hle
    rw [encode, encode_into, horc]
    rw [show map_error st = some (.ok st) from by
      simp [map_error, Int.not_lt.mpr hst]]
    refine ⟨rfl, ?_, ?_⟩
    · simp only [List.length_take, hout]
      omega
    · omega
  · intro orc pcm frame_size v hlen hok
    rw [encode, encode_into] at hok
    simp only [map_error] at hok
    split_ifs at hok with hneg
    · rcases h : OpusErrorCode.from_errno (orc pcm frame_size
        (List.replicate MAX_DATA_BYTES 0)).1 with _ | e <;>
        simp [h, Except.map] at hok
    · simp only [Option.map_some, Except.map, Option.some_inj] at hok
      cases hok
      have := hlen pcm frame_size (List.replicate MAX_DATA_BYTES 0)
      simp only [List.length_replicate] at this
      simp [List.length_take, this]

/-- C10 witness: the packet size bound instantiated at a concrete oracle
that echoes the buffer with status 0, producing the empty packet. -/
theorem encoded_packet_size_bound_witness :
    encode (fun _ _ b => (0, b)) [] 10 = some (.ok []) ∧
      (0 : Int) ≤ 0 := by
  have h := (encoded_packet_size_bound.1 (fun _ _ b => (0, b)) [] 10 0
    (List.replicate MAX_DATA_BYTES 0) rfl (List.length_replicate _ _)
    (by decide) (by decide)).1
  simpa using h

/-! ## Per-chunk failure handling (main.rs, capture and playback loops)

During capture, each drained chunk is encoded; `Ok` results are pushed to
`encoded_chunks` and `Err` results only print a message (main.rs lines
194-203). During playback, each stored chunk is decoded with
`decode(Some(&chunk.data), chunk.frame_size, false)`; `Ok` results are sent
to the playback queue and `Err` results only print a message (lines
255-262). The codec bridge results are modelled by oracles returning
`Except`. -/

/-- Model of the `EncodedChunk` struct (main.rs lines 11-14). -/
structure EncodedChunk where
  data : List Nat
  frame_size : Nat

/-- Model of the capture drain loop with encoding (main.rs lines 189-204):
while a full chunk is buffered, drain it and append the encode result to
`encoded_chunks` when it succeeds, skipping it otherwise. The bridge's
encode is the oracle `enc`. -/
def captureDrain (enc : List Int → Nat → Except OpusErrorCode (List Nat))
    (samples_per_chunk channels : Nat) (buf : List Int)
    (encoded_chunks : List EncodedChunk) : List EncodedChunk × List Int :=
  if _h : 0 < samples_per_chunk * channels ∧
      samples_per_chunk * channels ≤ buf.length then
    let chunk := buf.take (samples_per_chunk * channels)
    let next :=
      match enc chunk samples_per_chunk with
      | .ok encoded => encoded_chunks ++ [⟨encoded, samples_per_chunk⟩]
      | .error _ => encoded_chunks
    captureDrain enc samples_per_chunk channels
      (buf.drop (samples_per_chunk * channels)) next
  else (encoded_chunks, buf)
termination_by buf.length
decreasing_by simp only [List.length_drop]; omega

/-- Model of the playback loop (main.rs lines 255-262): decode each stored
chunk in order with `decode_fec = false`, sending successes to the playback
queue and skipping failures. The bridge's decode is the oracle `dec`;
returns the list of frames sent. -/
def playbackLoop (dec : List Nat → Nat → Bool → Except OpusErrorCode (List Int)) :
    List EncodedChunk → List (List Int)
  | [] => []
  | chunk :: rest =>
    match dec chunk.data chunk.frame_size false with
    | .ok decoded => decoded :: playbackLoop dec rest
    | .error _ => playbackLoop dec rest

theorem captureDrain_spec (enc : List Int → Nat → Except OpusErrorCode (List Nat))
    (spc channels : Nat) (buf : List Int) (acc : List EncodedChunk) :
    captureDrain enc spc channels buf acc =
      (acc ++ (drainChunks (spc * channels) buf).1.filterMap (fun c =>
          (enc c spc).toOption.map (fun d => ⟨d, spc⟩)),
        (drainChunks (spc * channels) buf).2) := by
  by_cases h : 0 < spc * channels ∧ spc * channels ≤ buf.length
  · rw [captureDrain.eq_def, dif_pos h, drainChunks, dif_pos h]
    rcases henc : enc (buf.take (spc * channels)) spc with e | d
    · simp only [henc]
      rw [captureDrain_spec enc spc channels (buf.drop (spc * channels)) acc]
      simp [List.filterMap_cons, henc, Except.toOption]
    · simp only [henc]
      rw [captureDrain_spec enc spc channels (buf.drop (spc * channels))
        (acc ++ [EncodedChunk.mk d spc])]
      simp [List.filterMap_cons, henc, Except.toOption]
  · rw [captureDrain.eq_def, dif_neg h, drainChunks, dif_neg h]
    simp
termination_by buf.length
decreasing_by all_goals (simp only [List.length_drop]; omega)

theorem playbackLoop_spec (dec : List Nat → Nat → Bool → Except OpusErrorCode (List Int))
    (chunks : List EncodedChunk) :
    playbackLoop dec chunks =
      chunks.filterMap (fun c => (dec c.data c.frame_size false).toOption) := by
  induction chunks with
  | nil => rfl
  | cons c rest ih =>
    rcases hdec : dec c.data c.frame_size false with e | pcm <;>
      simp [playbackLoop, hdec, ih, List.filterMap_cons, Except.toOption]

/-- C7. Per-chunk failure recovery with atomic chunk-list state: the
capture drain loop produces exactly the chunk list accumulated so far
followed by the successfully encoded chunks in FIFO order (failed chunks
contribute nothing) while still consuming every full chunk of the buffer;
a failing encode leaves the chunk list untouched and the loop moves on to
the rest of the buffer; the playback loop sends exactly the successfully
decoded frames in order; and a failing decode sends nothing for that chunk
and continues with the next one. No per-chunk codec error aborts either
loop. -/
theorem per_chunk_failure_recovery :
    (∀ (enc : List Int → Nat → Except OpusErrorCode (List Nat))
        (spc channels : Nat) (buf : List Int) (acc : List EncodedChunk),
        captureDrain enc spc channels buf acc =
          (acc ++ (drainChunks (spc * channels) buf).1.filterMap (fun c =>
              (enc c spc).toOption.map (fun d => ⟨d, spc⟩)),
            (drainChunks (spc * channels) buf).2)) ∧
      (∀ (enc : List Int → Nat → Except OpusErrorCode (List Nat))
          (spc channels : Nat) (buf : List Int) (acc : List EncodedChunk)
          (e : OpusErrorCode),
          0 < spc * channels → spc * channels ≤ buf.length →
          enc (buf.take (spc * channels)) spc = .error e →
            captureDrain enc spc channels buf acc =
              captureDrain enc spc channels (buf.drop (spc * channels)) acc) ∧
      (∀ (dec : List Nat → Nat → Bool → Except OpusErrorCode (List Int))
          (chunks : List EncodedChunk),
          playbackLoop dec chunks =
            chunks.filterMap (fun c => (dec c.data c.frame_size false).toOption)) ∧
      (∀ (dec : List Nat → Nat → Bool → Except OpusErrorCode (List Int))
          (c : EncodedChunk) (rest : List EncodedChunk) (e : OpusErrorCode),
          dec c.data c.frame_size false = .error e →
            playbackLoop dec (c :: rest) = playbackLoop dec rest) := by
  refine ⟨captureDrain_spec, ?_, playbackLoop_spec, ?_⟩
  · intro enc spc channels buf acc e h1 h2 henc
    rw [captureDrain.eq_def, dif_pos ⟨h1, h2⟩]
    simp [henc]
  · intro dec c rest e hdec
    simp [playbackLoop, hdec]

/-- Encoder oracle that fails on every chunk, used only to witness the
failure recovery theorem. -/
def encAlwaysFails (_pcm : List Int) (_frame_size : Nat) :
    Except OpusErrorCode (List Nat) :=
  .error .InternalError

/-- Decoder oracle that fails on every packet, used only to witness the
failure recovery theorem. -/
def decAlwaysFails (_data : List Nat) (_frame_size : Nat) (_fec : Bool) :
    Except OpusErrorCode (List Int) :=
  .error .InvalidPacket

/-- C7 witness: one failing encode iteration and one failing decode
iteration, each skipping the chunk and continuing. -/
theorem per_chunk_failure_recovery_witness :
    (0 : Nat) < 1 * 1 ∧ (1 * 1 : Nat) ≤ ([5] : List Int).length ∧
      captureDrain encAlwaysFails 1 1 [5] [] =
        captureDrain encAlwaysFails 1 1 (([5] : List Int).drop (1 * 1)) [] ∧
      playbackLoop decAlwaysFails [⟨[9], 1⟩] = playbackLoop decAlwaysFails [] := by
  refine ⟨by decide, by decide, ?_, ?_⟩
  · exact per_chunk_failure_recovery.2.1 encAlwaysFails 1 1 [5] [] .InternalError
      (by decide) (by decide) rfl
  · exact per_chunk_failure_recovery.2.2.2 decAlwaysFails ⟨[9], 1⟩ [] .InvalidPacket rfl

/-! ## Playback audio buffer (main.rs, AudioBuffer)

`AudioBuffer` (main.rs lines 16-45) owns the decoded sample data, a channel
count and a read cursor; `get_next_chunk` yields successive chunks of at
most `chunk_size * channels` samples. (This struct is dead code in the demo
entry point but is specified as the playback-buffer read path.) -/

/-- Model of the `AudioBuffer` struct (main.rs lines 16-20). -/
structure AudioBuffer where
  data : List Int
  channels : Nat
  position : Nat

/-- Model of `AudioBuffer::get_next_chunk` (main.rs lines 31-44), returning
the yielded slice (if any) together with the updated buffer. -/
def get_next_chunk (b : AudioBuffer) (chunk_size : Nat) :
    Option (List Int) × AudioBuffer :=
  if b.data.length ≤ b.position then
    (none, b)
  else
    let remaining := b.data.length - b.position
    let chunk_samples := chunk_size * b.channels
    let take_samples := min chunk_samples remaining
    (some ((b.data.drop b.position).take take_samples),
      { b with position := b.position + take_samples })

/-- C8. Audio buffer read invariant: under the invariant
`position ≤ data.length`, `get_next_chunk` preserves it, never decreases
`position`, never changes the data or the channel count; at
`position = data.length` it yields nothing and leaves the buffer unchanged;
otherwise it yields exactly `min (chunk_size * channels)
(data.length - position)` samples starting at `position` and advances
`position` by that amount — so a trailing partial chunk is returned in
full rather than padded or discarded. -/
theorem audio_buffer_read_invariant (b : AudioBuffer) (chunk_size : Nat)
    (hinv : b.position ≤ b.data.length) :
    (get_next_chunk b chunk_size).2.position ≤
        (get_next_chunk b chunk_size).2.data.length ∧
      b.position ≤ (get_next_chunk b chunk_size).2.position ∧
      (get_next_chunk b chunk_size).2.data = b.data ∧
      (get_next_chunk b chunk_size).2.channels = b.channels ∧
      (b.position = b.data.length →
        (get_next_chunk b chunk_size).1 = none ∧
          (get_next_chunk b chunk_size).2 = b) ∧
      (b.position < b.data.length →
        (get_next_chunk b chunk_size).1 =
            some ((b.data.drop b.position).take
              (min (chunk_size * b.channels) (b.data.length - b.position))) ∧
          (∀ c, (get_next_chunk b chunk_size).1 = some c →
            c.length = min (chunk_size * b.channels) (b.data.length - b.position)) ∧
          (get_next_chunk b chunk_size).2.position =
            b.position + min (chunk_size * b.channels) (b.data.length - b.position)) := by
  by_cases h : b.data.length ≤ b.position
  · have heq : b.position = b.data.length := le_antisymm hinv h
    rw [get_next_chunk, if_pos h]
    refine ⟨hinv, le_refl _, rfl, rfl, fun _ => ⟨rfl, rfl⟩, fun hlt => absurd hlt (by omega)⟩
  · push_neg at h
    rw [get_next_chunk, if_neg (by omega)]
    have hmin : min (chunk_size * b.channels) (b.data.length - b.position) ≤
        b.data.length - b.position := min_le_right _ _
    refine ⟨by simp; omega, by simp, rfl, rfl, fun heq => absurd heq (by omega), ?_⟩
    intro _
    refine ⟨rfl, ?_, rfl⟩
    intro c hc
    simp only [Option.some_inj] at hc
    subst hc
    simp only [List.length_take, List.length_drop]
    omega

/-- C8 witness: the invariant instantiated at a mono buffer of three
samples read from position 1 with an oversized chunk request, yielding the
trailing partial chunk in full. -/
theorem audio_buffer_read_invariant_witness :
    (1 : Nat) ≤ ([1, 2, 3] : List Int).length ∧
      (get_next_chunk ⟨[1, 2, 3], 1, 1⟩ 5).2.position ≤
        (get_next_chunk ⟨[1, 2, 3], 1, 1⟩ 5).2.data.length :=
  ⟨by decide, (audio_buffer_read_invariant ⟨[1, 2, 3], 1, 1⟩ 5 (by decide)).1⟩

end Meowlouder
